import Mathlib

/-!
Verification of the cv_extractor extraction pipeline.

Shallow embedding of the merge/postprocess engine
(preprocess/postprocessing.py), the extraction client
(preprocess/extractor.py) and the pipeline orchestrator with its
sync/async execution bridge (preprocess/run_pipeline.py and
app/functions.py), together with proofs of the specified properties.

Python dictionaries are embedded as association lists of string keys and
JSON-like values; the list order is the dict insertion order, matching
the ordered semantics of Python dicts. Dicts built by the modelled code
never carry a duplicate key, and the embedded update/remove operations
preserve that.
-/

namespace CvExtractor

/-- JSON-like values, the payload type of extraction results. Floats do
not occur in the modelled code paths; numbers are integers. A Python
dict appears as its ordered list of key/value pairs. -/
inductive Value where
  | vnull : Value
  | vbool : Bool → Value
  | vint : Int → Value
  | vstr : String → Value
  | vlist : List Value → Value
  | vdict : List (String × Value) → Value

mutual

/-- Structural equality of values, mirroring Python == on JSON trees. -/
def Value.beq : Value → Value → Bool
  | .vnull, .vnull => true
  | .vbool a, .vbool b => a == b
  | .vint a, .vint b => a == b
  | .vstr a, .vstr b => a == b
  | .vlist xs, .vlist ys => Value.beqList xs ys
  | .vdict xs, .vdict ys => Value.beqDict xs ys
  | _, _ => false

/-- Elementwise equality of value lists. -/
def Value.beqList : List Value → List Value → Bool
  | [], [] => true
  | x :: xs, y :: ys => Value.beq x y && Value.beqList xs ys
  | _, _ => false

/-- Pairwise equality of key/value pair lists. -/
def Value.beqDict : List (String × Value) → List (String × Value) → Bool
  | [], [] => true
  | (k1, v1) :: xs, (k2, v2) :: ys => k1 == k2 && Value.beq v1 v2 && Value.beqDict xs ys
  | _, _ => false

end

mutual

/-- The Boolean equality decides propositional equality of values. -/
theorem Value.beq_iff : ∀ a b : Value, Value.beq a b = true ↔ a = b
  | .vnull, b => by cases b <;> simp [Value.beq]
  | .vbool a, b => by cases b <;> simp [Value.beq]
  | .vint a, b => by cases b <;> simp [Value.beq]
  | .vstr a, b => by cases b <;> simp [Value.beq]
  | .vlist xs, b => by
      cases b <;> simp [Value.beq]
      exact Value.beqList_iff xs _
  | .vdict xs, b => by
      cases b <;> simp [Value.beq]
      exact Value.beqDict_iff xs _

/-- The Boolean equality decides propositional equality of value lists. -/
theorem Value.beqList_iff : ∀ xs ys : List Value, Value.beqList xs ys = true ↔ xs = ys
  | [], ys => by cases ys <;> simp [Value.beqList]
  | x :: xs, ys => by
      cases ys with
      | nil => simp [Value.beqList]
      | cons y ys =>
          simp [Value.beqList, Value.beq_iff x y, Value.beqList_iff xs ys]

/-- The Boolean equality decides propositional equality of pair lists. -/
theorem Value.beqDict_iff : ∀ xs ys : List (String × Value), Value.beqDict xs ys = true ↔ xs = ys
  | [], ys => by cases ys <;> simp [Value.beqDict]
  | (k1, v1) :: xs, ys => by
      cases ys with
      | nil => simp [Value.beqDict]
      | cons q ys =>
          obtain ⟨k2, v2⟩ := q
          simp [Value.beqDict, Value.beq_iff v1 v2, Value.beqDict_iff xs ys]

end

instance : DecidableEq Value := fun a b =>
  decidable_of_iff (Value.beq a b = true) (Value.beq_iff a b)

/-- A Python dict: ordered association list of string keys to values. -/
abbrev Dict := List (String × Value)

/-- Python dict lookup d.get(k): the value at the first matching key,
none when the key is absent. -/
def dget : Dict → String → Option Value
  | [], _ => none
  | p :: rest, k => if p.1 = k then some p.2 else dget rest k

/-- Python dict assignment d[k] = v: overwrite in place when the key is
present, append at the end otherwise. -/
def dset : Dict → String → Value → Dict
  | [], k, v => [(k, v)]
  | p :: rest, k, v => if p.1 = k then (k, v) :: rest else p :: dset rest k v

/-- Python d.pop(k, None): remove the key when present. -/
def dpop : Dict → String → Dict
  | [], _ => []
  | p :: rest, k => if p.1 = k then dpop rest k else p :: dpop rest k

/-- Python truthiness of a value: None, False, 0, empty string, empty
list and empty dict are falsy; everything else is truthy. -/
def pyFalsy : Value → Bool
  | .vnull => true
  | .vbool b => !b
  | .vint n => n == 0
  | .vstr s => s.isEmpty
  | .vlist xs => xs.isEmpty
  | .vdict kvs => kvs.isEmpty

/-- Python `a or b`: a when truthy, b otherwise. -/
def pyOr (a b : Value) : Value := if pyFalsy a then b else a

/-- Python d.get(k) with its implicit None default. -/
def mget (m : Dict) (k : String) : Value := (dget m k).getD .vnull

/-!
Merge/postprocess engine, from preprocess/postprocessing.py.
-/

/-- Membership test of postprocessing.py line 53, `val in (None, "", [], \x7b\x7d)`:
exactly None, the empty string, the empty list and the empty dict
compare equal to a member of that tuple. -/
def inEmptyTuple : Value → Bool
  | .vnull => true
  | .vstr s => s.isEmpty
  | .vlist xs => xs.isEmpty
  | .vdict kvs => kvs.isEmpty
  | _ => false

/-- The designated list fields of postprocessing.py lines 28 to 30. -/
def list_fields : List String :=
  ["professional_experience", "education", "skills", "languages", "certifications", "profiles"]

/-- The designated scalar fields of postprocessing.py lines 47 to 49. -/
def scalar_fields : List String :=
  ["name", "summary", "email", "phone", "location", "years_experience",
   "current_position", "current_company"]

/-- Insert a key/value pair into a key-sorted pair list. Keys inside one
dict are unique, so ordering pairs by key alone coincides with the
lexicographic pair ordering used by Python sorted. -/
def insertByKey (p : String × Value) : List (String × Value) → List (String × Value)
  | [] => [p]
  | q :: rest => if p.1 ≤ q.1 then p :: q :: rest else q :: insertByKey p rest

/-- Sort the pairs of a dict by key, modelling sorted(item.items()). -/
def sortPairs (l : List (String × Value)) : List (String × Value) :=
  l.foldr insertByKey []

/-- The deduplication key of postprocessing.py line 41: a dict item is
keyed by its sorted key/value pairs, any other item by itself. -/
def dedupKey : Value → Value
  | .vdict kvs => .vdict (sortPairs kvs)
  | v => v

/-- The items a result contributes to a list field, postprocessing.py
lines 37 to 39: r.get(field, []) followed by a truthiness test, so an
absent key, a None and an empty value contribute nothing. Schema list
fields hold lists; non-list truthy values are out of contract. -/
def fieldItems (r : Dict) (field : String) : List Value :=
  match dget r field with
  | some (.vlist xs) => xs
  | _ => []

/-- The in-order concatenation of every documents items for one field. -/
def concatField (results : List Dict) (field : String) : List Value :=
  (results.map (fun r => fieldItems r field)).flatten

/-- One pass of the dedup loop of postprocessing.py lines 39 to 44: keep
an item when its dedup key was not seen before, first occurrence wins. -/
def dedupWithSeen (seen : List Value) : List Value → List Value
  | [] => []
  | item :: rest =>
      let t := dedupKey item
      if t ∈ seen then dedupWithSeen seen rest
      else item :: dedupWithSeen (t :: seen) rest

/-- The merged value of one list field: concatenate all documents items
in document order, then deduplicate keeping first occurrences. -/
def mergedListField (results : List Dict) (field : String) : List Value :=
  dedupWithSeen [] (concatField results field)

/-- The qualifying value a result offers for a scalar field,
postprocessing.py lines 52 to 53: present and not equal to any of
None, empty string, empty list, empty dict. -/
def scalarVal (r : Dict) (field : String) : Option Value :=
  match dget r field with
  | some v => if inEmptyTuple v then none else some v
  | none => none

/-- The scalar loop of postprocessing.py lines 50 to 55: the value of the
first result, in input order, whose value qualifies. -/
def firstScalar (results : List Dict) (field : String) : Option Value :=
  results.findSome? (fun r => scalarVal r field)

/-- One step of the list-field loop: merged[field] = deduped items. -/
def setListField (results : List Dict) (m : Dict) (f : String) : Dict :=
  dset m f (.vlist (mergedListField results f))

/-- One step of the scalar loop: set the field when a value qualifies,
leave the accumulator unchanged otherwise. -/
def setScalarField (results : List Dict) (m : Dict) (f : String) : Dict :=
  match firstScalar results f with
  | some v => dset m f v
  | none => m

/-- merge_documents of postprocessing.py lines 14 to 64: empty input
gives an empty dict, a single result is returned unchanged, otherwise
list fields are concatenated and deduplicated, scalar fields take the
first non-empty value, and source, file_name and page are removed. -/
def merge_documents : List Dict → Dict
  | [] => []
  | [r] => r
  | results@(_ :: _ :: _) =>
      let m1 := list_fields.foldl (setListField results) []
      let m2 := scalar_fields.foldl (setScalarField results) m1
      dpop (dpop (dpop m2 "source") "file_name") "page"

/-- postprocess_extracted_data of postprocessing.py lines 5 to 11:
drop the keys whose value is None, keep empty lists and dicts. -/
def postprocess_extracted_data (data : Dict) : Dict :=
  data.filter (fun p => p.2 ≠ .vnull)

/-!
Extraction client, from preprocess/extractor.py.
-/

/-- A langchain document as the extractor consumes it: the page text, the
metadata dict when present as a dict (none models a missing or non-dict
metadata attribute), and an optional source attribute on the object
itself, probed by getattr(document, "source", None). -/
structure LCDocument where
  page_content : String
  metadata : Option Dict
  sourceAttr : Option String
deriving DecidableEq

/-- The outcome of awaiting self.chain.ainvoke on a document: a
structured payload (the dict of the returned model), a None result, or
a raised exception carrying its message. The LLM call is the single
external effect of the client; everything around it is modelled
exactly. -/
inductive ChainOutcome where
  | success : Dict → ChainOutcome
  | noneResult : ChainOutcome
  | failure : String → ChainOutcome
deriving DecidableEq

/-- Python str() of a value as used in f-strings. Source paths are
strings in every modelled path; the container cases stand in for reprs
that the modelled code never builds. -/
def valueStr : Value → String
  | .vnull => "None"
  | .vbool b => if b then "True" else "False"
  | .vint n => toString n
  | .vstr s => s
  | .vlist _ => "[...]"
  | .vdict _ => "{...}"

/-- os.path.basename for slash-separated paths: the characters after the
last separator, computed in one pass that restarts at every slash. -/
def pathBasename (s : String) : String :=
  String.mk (s.data.foldl (fun acc c => if c = '/' then [] else acc ++ [c]) [])

/-- basename applied to a metadata value; schema metadata stores string
paths, and a non-string path would make the Python call raise, which is
out of contract. -/
def valueBasename : Value → Value
  | .vstr s => .vstr (pathBasename s)
  | v => v

/-- Resolution of the source file name, extractor.py lines 36 to 42:
metadata source, else metadata file_path, else the source attribute,
else the literal unknown, each step skipping falsy values. -/
def sourceFileOf (doc : LCDocument) : Value :=
  let s1 : Value :=
    match doc.metadata with
    | some md => pyOr (mget md "source") (mget md "file_path")
    | none => .vnull
  let s2 : Value :=
    if pyFalsy s1 then
      match doc.sourceAttr with
      | some t => .vstr t
      | none => .vnull
    else s1
  if pyFalsy s2 then .vstr "unknown" else s2

/-- Provenance attachment on success, extractor.py lines 59 to 74: copy
source (falling back to file_path), the basename as file_name, and page
when present, into the payload; with no metadata dict, fall back to the
source attribute of the document. -/
def attachMeta (doc : LCDocument) (data : Dict) : Dict :=
  match doc.metadata with
  | some md =>
      let d1 :=
        match dget md "source" with
        | some v => dset data "source" v
        | none =>
            match dget md "file_path" with
            | some v => dset data "source" v
            | none => data
      let d2 :=
        match dget md "source" with
        | some v => dset d1 "file_name" (valueBasename v)
        | none =>
            match dget md "file_path" with
            | some v => dset d1 "file_name" (valueBasename v)
            | none => d1
      match dget md "page" with
      | some v => dset d2 "page" v
      | none => d2
  | none =>
      match doc.sourceAttr with
      | some t => dset (dset data "source" (.vstr t)) "file_name" (.vstr (pathBasename t))
      | none => data

/-- DocumentExtractor.extract_from_document, extractor.py lines 33 to
85, as a function of the document and the chain outcome: on success the
payload with provenance attached, on a None result the empty dict, and
on a raised exception the error dict built in the handler of lines 82
to 85. The function is total: no outcome propagates an exception. -/
def extract_from_document (doc : LCDocument) (outcome : ChainOutcome) : Dict :=
  match outcome with
  | .success payload => attachMeta doc payload
  | .noneResult => []
  | .failure msg =>
      [("error", .vstr ("Error processing document " ++ valueStr (sourceFileOf doc)
          ++ ": " ++ msg)),
       ("source_file", sourceFileOf doc)]

/-!
Pipeline orchestrator, from preprocess/run_pipeline.py lines 91 to 143.
The file write and the return value are both recorded. For an existing
input path, input_path.is_file() is the negation of
input_path.is_dir(), so a single flag models the branch. The
per-document loop never reaches the outer exception handler of lines
139 to 143, because extract_from_document returns error dicts instead
of raising.
-/

/-- What one orchestrator run produces: the JSON value written to the
output file and the value returned to the caller. -/
structure PipelineRun where
  written : Value
  returned : Value
deriving DecidableEq

/-- run_extraction_pipeline as a function of the input kind, the loaded
documents in discovery order, and the chain outcome of each document.
Empty batch: write an empty list for a directory or an empty dict for a
file, and return an empty dict. File input: extract the first document,
write and return its result. Directory input: extract every document in
order, write and return the list. -/
def run_extraction_pipeline (isDir : Bool) (docs : List LCDocument)
    (chain : LCDocument → ChainOutcome) : PipelineRun :=
  match docs with
  | [] => ⟨if isDir then .vlist [] else .vdict [], .vdict []⟩
  | d :: ds =>
      if isDir then
        let results := (d :: ds).map (fun x => Value.vdict (extract_from_document x (chain x)))
        ⟨.vlist results, .vlist results⟩
      else
        let r := Value.vdict (extract_from_document d (chain d))
        ⟨r, r⟩

/-!
Sync/async execution bridge. The dispatch structure of the two bridge
copies is embedded; the timeout argument of the blocking wait is the
bound the spec talks about, kept as data.
-/

/-- The scheduler state of the calling thread: no event loop is set, an
event loop is set but idle, or an event loop is running (the reentrant
case). -/
inductive LoopState where
  | noLoop : LoopState
  | idleLoop : LoopState
  | runningLoop : LoopState
deriving DecidableEq

/-- How the bridge executes the operation: return a non-coroutine
directly, run on the current idle loop, run on a fresh loop via
asyncio.run, or submit asyncio.run to a worker thread and block on
future.result with the recorded timeout in seconds, none meaning an
unbounded wait. -/
inductive ExecPlan where
  | direct : ExecPlan
  | runUntilComplete : ExecPlan
  | newLoopRun : ExecPlan
  | workerThread : Option Nat → ExecPlan
deriving DecidableEq

/-- run_sync_or_async of run_pipeline.py lines 70 to 89: a non-coroutine
is returned as is; with a running loop the coroutine is submitted to a
ThreadPoolExecutor worker running asyncio.run and the caller blocks on
future.result() with no timeout argument; with an idle loop it runs on
that loop; with no loop, get_event_loop raises and the handler calls
asyncio.run. -/
def run_sync_or_async (isCoroutine : Bool) (loop : LoopState) : ExecPlan :=
  if isCoroutine then
    match loop with
    | .runningLoop => .workerThread none
    | .idleLoop => .runUntilComplete
    | .noLoop => .newLoopRun
  else .direct

/-- The execution branch of process_uploaded_file, app/functions.py
lines 106 to 141: the UI-layer copy of the bridge. A running loop sends
the coroutine to a worker thread and blocks on future.result with
timeout 120 seconds; an idle or freshly created loop runs it inline; a
synchronous extract function is called directly. -/
def process_uploaded_file_exec (isAsync : Bool) (loop : LoopState) : ExecPlan :=
  if isAsync then
    match loop with
    | .runningLoop => .workerThread (some 120)
    | .idleLoop => .runUntilComplete
    | .noLoop => .runUntilComplete
  else .direct

/-!
Lemmas about the dict operations.
-/

theorem dget_dset_self (m : Dict) (k : String) (v : Value) :
    dget (dset m k v) k = some v := by
  induction m with
  | nil => simp [dset, dget]
  | cons p rest ih =>
      by_cases h : p.1 = k
      · simp [dset, h, dget]
      · simp [dset, h, dget, ih]

theorem dget_dset_ne (m : Dict) (k k' : String) (v : Value) (h : k' ≠ k) :
    dget (dset m k' v) k = dget m k := by
  induction m with
  | nil => simp [dset, dget, h]
  | cons p rest ih =>
      by_cases hp : p.1 = k'
      · simp [dset, hp, dget, h]
      · simp only [dset, hp, if_false, dget]
        by_cases hk : p.1 = k
        · simp [hk]
        · simp [hk, ih]

theorem dget_dpop_self (m : Dict) (k : String) : dget (dpop m k) k = none := by
  induction m with
  | nil => simp [dpop, dget]
  | cons p rest ih =>
      by_cases h : p.1 = k
      · simp [dpop, h, ih]
      · simp [dpop, h, dget, ih]

theorem dget_dpop_ne (m : Dict) (k k' : String) (h : k' ≠ k) :
    dget (dpop m k') k = dget m k := by
  induction m with
  | nil => simp [dpop]
  | cons p rest ih =>
      by_cases hp : p.1 = k'
      · have : p.1 ≠ k := by rw [hp]; exact h
        simp [dpop, hp, dget, this, ih, h]
      · simp only [dpop, hp, if_false, dget]
        by_cases hk : p.1 = k
        · simp [hk]
        · simp [hk, ih]

theorem mem_dpop {m : Dict} {k : String} {p : String × Value} (hp : p ∈ dpop m k) :
    p ∈ m ∧ p.1 ≠ k := by
  induction m with
  | nil => simp [dpop] at hp
  | cons q rest ih =>
      by_cases hq : q.1 = k
      · simp only [dpop, hq, if_true] at hp
        exact ⟨List.mem_cons_of_mem q (ih hp).1, (ih hp).2⟩
      · simp only [dpop, hq, if_false, List.mem_cons] at hp
        rcases hp with rfl | hp
        · exact ⟨List.mem_cons_self p rest, hq⟩
        · exact ⟨List.mem_cons_of_mem q (ih hp).1, (ih hp).2⟩

/-!
Lemmas about the two merge loops.
-/

theorem dget_foldl_list_not_mem (results : List Dict) (fs : List String) (k : String)
    (hk : k ∉ fs) : ∀ m : Dict, dget (fs.foldl (setListField results) m) k = dget m k := by
  induction fs with
  | nil => intro m; rfl
  | cons f fs ih =>
      intro m
      rw [List.mem_cons, not_or] at hk
      rw [List.foldl_cons, ih hk.2, setListField, dget_dset_ne _ _ _ _ (Ne.symm hk.1)]

theorem dget_foldl_list_mem (results : List Dict) (fs : List String) (k : String)
    (hk : k ∈ fs) (hnd : fs.Nodup) :
    ∀ m : Dict, dget (fs.foldl (setListField results) m) k
      = some (.vlist (mergedListField results k)) := by
  induction fs with
  | nil => simp at hk
  | cons f fs ih =>
      intro m
      rw [List.foldl_cons]
      by_cases h : k = f
      · subst h
        have hnotin : k ∉ fs := (List.nodup_cons.mp hnd).1
        rw [dget_foldl_list_not_mem results fs k hnotin, setListField, dget_dset_self]
      · have hk' : k ∈ fs := by
          rcases List.mem_cons.mp hk with h' | h'
          · exact absurd h' h
          · exact h'
        exact ih hk' (List.nodup_cons.mp hnd).2 _

theorem dget_foldl_scalar_not_mem (results : List Dict) (fs : List String) (k : String)
    (hk : k ∉ fs) : ∀ m : Dict, dget (fs.foldl (setScalarField results) m) k = dget m k := by
  induction fs with
  | nil => intro m; rfl
  | cons f fs ih =>
      intro m
      rw [List.mem_cons, not_or] at hk
      rw [List.foldl_cons, ih hk.2]
      cases hfs : firstScalar results f with
      | none => simp [setScalarField, hfs]
      | some v => simp [setScalarField, hfs, dget_dset_ne _ _ _ _ (Ne.symm hk.1)]

theorem dget_foldl_scalar_mem (results : List Dict) (fs : List String) (k : String)
    (hk : k ∈ fs) (hnd : fs.Nodup) :
    ∀ m : Dict, dget (fs.foldl (setScalarField results) m) k
      = match firstScalar results k with
        | some v => some v
        | none => dget m k := by
  induction fs with
  | nil => simp at hk
  | cons f fs ih =>
      intro m
      rw [List.foldl_cons]
      by_cases h : k = f
      · subst h
        have hnotin : k ∉ fs := (List.nodup_cons.mp hnd).1
        rw [dget_foldl_scalar_not_mem results fs k hnotin]
        cases hfs : firstScalar results k with
        | none => simp [setScalarField, hfs]
        | some v => simp [setScalarField, hfs, dget_dset_self]
      · have hk' : k ∈ fs := by
          rcases List.mem_cons.mp hk with h' | h'
          · exact absurd h' h
          · exact h'
        rw [ih hk' (List.nodup_cons.mp hnd).2 (setScalarField results m f)]
        have hstep : dget (setScalarField results m f) k = dget m k := by
          cases hf2 : firstScalar results f with
          | none => simp [setScalarField, hf2]
          | some v => simp [setScalarField, hf2, dget_dset_ne _ _ _ _ (Ne.symm h)]
        cases hfs : firstScalar results k with
        | none => simp [hstep]
        | some v => simp

theorem merge_documents_cons2 (a b : Dict) (rest : List Dict) :
    merge_documents (a :: b :: rest) =
      dpop (dpop (dpop
        (scalar_fields.foldl (setScalarField (a :: b :: rest))
          (list_fields.foldl (setListField (a :: b :: rest)) [])) "source")
        "file_name") "page" := rfl

theorem mem_list_fields_props {f : String} (hf : f ∈ list_fields) :
    f ∉ scalar_fields ∧ f ≠ "source" ∧ f ≠ "file_name" ∧ f ≠ "page" := by
  simp only [list_fields, List.mem_cons, List.not_mem_nil, or_false] at hf
  rcases hf with rfl | rfl | rfl | rfl | rfl | rfl <;> exact ⟨by decide, by decide, by decide, by decide⟩

theorem mem_scalar_fields_props {f : String} (hf : f ∈ scalar_fields) :
    f ∉ list_fields ∧ f ≠ "source" ∧ f ≠ "file_name" ∧ f ≠ "page" := by
  simp only [scalar_fields, List.mem_cons, List.not_mem_nil, or_false] at hf
  rcases hf with rfl | rfl | rfl | rfl | rfl | rfl | rfl | rfl <;>
    exact ⟨by decide, by decide, by decide, by decide⟩

theorem merge_dget_list (results : List Dict) (h2 : 2 ≤ results.length)
    {f : String} (hf : f ∈ list_fields) :
    dget (merge_documents results) f = some (.vlist (mergedListField results f)) := by
  rcases results with _ | ⟨a, _ | ⟨b, rest⟩⟩
  · simp at h2
  · simp at h2
  · obtain ⟨hs, h1, h2', h3⟩ := mem_list_fields_props hf
    rw [merge_documents_cons2, dget_dpop_ne _ _ _ (Ne.symm h3),
      dget_dpop_ne _ _ _ (Ne.symm h2'), dget_dpop_ne _ _ _ (Ne.symm h1),
      dget_foldl_scalar_not_mem _ _ _ hs,
      dget_foldl_list_mem _ _ _ hf (by decide)]

theorem merge_dget_scalar (results : List Dict) (h2 : 2 ≤ results.length)
    {f : String} (hf : f ∈ scalar_fields) :
    dget (merge_documents results) f = firstScalar results f := by
  rcases results with _ | ⟨a, _ | ⟨b, rest⟩⟩
  · simp at h2
  · simp at h2
  · obtain ⟨hl, h1, h2', h3⟩ := mem_scalar_fields_props hf
    rw [merge_documents_cons2, dget_dpop_ne _ _ _ (Ne.symm h3),
      dget_dpop_ne _ _ _ (Ne.symm h2'), dget_dpop_ne _ _ _ (Ne.symm h1),
      dget_foldl_scalar_mem _ _ _ hf (by decide)]
    rw [dget_foldl_list_not_mem _ _ _ hl]
    cases hfs : firstScalar (a :: b :: rest) f with
    | none => simp [dget]
    | some v => simp

/-!
Lemmas about the deduplication pass.
-/

theorem dedupWithSeen_sublist : ∀ (xs : List Value) (seen : List Value),
    List.Sublist (dedupWithSeen seen xs) xs := by
  intro xs
  induction xs with
  | nil => intro seen; simp [dedupWithSeen]
  | cons x xs ih =>
      intro seen
      simp only [dedupWithSeen]
      by_cases h : dedupKey x ∈ seen
      · simp only [h, if_true]
        exact (ih seen).cons x
      · simp only [h, if_false]
        exact (ih _).cons₂ x

theorem dedupWithSeen_key_not_seen : ∀ (xs seen : List Value) (v : Value),
    v ∈ dedupWithSeen seen xs → dedupKey v ∉ seen := by
  intro xs
  induction xs with
  | nil => intro seen v hv; simp [dedupWithSeen] at hv
  | cons x xs ih =>
      intro seen v hv
      simp only [dedupWithSeen] at hv
      by_cases h : dedupKey x ∈ seen
      · rw [if_pos h] at hv
        exact ih seen v hv
      · rw [if_neg h] at hv
        rcases List.mem_cons.mp hv with rfl | hv'
        · exact h
        · have := ih _ v hv'
          intro hc
          exact this (List.mem_cons_of_mem _ hc)

theorem dedupWithSeen_first_occurrence : ∀ (xs seen : List Value) (v : Value),
    v ∈ dedupWithSeen seen xs →
    xs.find? (fun w => dedupKey w == dedupKey v) = some v := by
  intro xs
  induction xs with
  | nil => intro seen v hv; simp [dedupWithSeen] at hv
  | cons x xs ih =>
      intro seen v hv
      simp only [dedupWithSeen] at hv
      by_cases h : dedupKey x ∈ seen
      · rw [if_pos h] at hv
        have hne : dedupKey x ≠ dedupKey v := by
          intro hc
          exact dedupWithSeen_key_not_seen xs seen v hv (hc ▸ h)
        rw [List.find?_cons_of_neg _ (by simp [hne]), ih seen v hv]
      · rw [if_neg h] at hv
        rcases List.mem_cons.mp hv with rfl | hv'
        · rw [List.find?_cons_of_pos _ (by simp)]
        · have hnotin := dedupWithSeen_key_not_seen xs _ v hv'
          have hne : dedupKey x ≠ dedupKey v := by
            intro hc
            exact hnotin (hc ▸ List.mem_cons_self _ _)
          rw [List.find?_cons_of_neg _ (by simp [hne]), ih _ v hv']

theorem dedupWithSeen_covers : ∀ (xs seen : List Value) (v : Value),
    v ∈ xs → dedupKey v ∉ seen →
    ∃ w ∈ dedupWithSeen seen xs, dedupKey w = dedupKey v := by
  intro xs
  induction xs with
  | nil => intro seen v hv; simp at hv
  | cons x xs ih =>
      intro seen v hv hseen
      simp only [dedupWithSeen]
      by_cases h : dedupKey x ∈ seen
      · rw [if_pos h]
        rcases List.mem_cons.mp hv with rfl | hv'
        · exact absurd h hseen
        · exact ih seen v hv' hseen
      · rw [if_neg h]
        by_cases hkey : dedupKey x = dedupKey v
        · exact ⟨x, List.mem_cons_self _ _, hkey⟩
        · have hv' : v ∈ xs := by
            rcases List.mem_cons.mp hv with rfl | hv'
            · exact absurd rfl hkey
            · exact hv'
          have hseen' : dedupKey v ∉ (dedupKey x :: seen) := by
            intro hc
            rcases List.mem_cons.mp hc with hc' | hc'
            · exact hkey hc'.symm
            · exact hseen hc'
          obtain ⟨w, hw, hwk⟩ := ih _ v hv' hseen'
          exact ⟨w, List.mem_cons_of_mem x hw, hwk⟩

theorem dedupWithSeen_pairwise : ∀ (xs seen : List Value),
    (dedupWithSeen seen xs).Pairwise (fun a b => dedupKey a ≠ dedupKey b) := by
  intro xs
  induction xs with
  | nil => intro seen; simp [dedupWithSeen]
  | cons x xs ih =>
      intro seen
      simp only [dedupWithSeen]
      by_cases h : dedupKey x ∈ seen
      · rw [if_pos h]; exact ih seen
      · rw [if_neg h]
        refine List.Pairwise.cons ?_ (ih _)
        intro b hb
        have := dedupWithSeen_key_not_seen xs _ b hb
        intro hc
        exact this (hc ▸ List.mem_cons_self _ _)

/-!
Lemmas about findSome?.
-/

theorem findSome?_eq_none_of_all {α β : Type} (l : List α) (f : α → Option β)
    (h : ∀ x ∈ l, f x = none) : l.findSome? f = none := by
  induction l with
  | nil => rfl
  | cons x xs ih =>
      rw [List.findSome?_cons]
      rw [h x (List.mem_cons_self x xs)]
      exact ih (fun y hy => h y (List.mem_cons_of_mem x hy))

theorem findSome?_eq_of_first {α β : Type} (l : List α) (f : α → Option β)
    (i : Nat) (hi : i < l.length) (v : β) (hv : f (l.get ⟨i, hi⟩) = some v)
    (hfirst : ∀ j (hj : j < i), f (l.get ⟨j, lt_trans hj hi⟩) = none) :
    l.findSome? f = some v := by
  induction l generalizing i with
  | nil => simp at hi
  | cons x xs ih =>
      rw [List.findSome?_cons]
      cases i with
      | zero =>
          simp only [List.get] at hv
          rw [hv]
      | succ i =>
          have h0 : f x = none := hfirst 0 (Nat.succ_pos i)
          rw [h0]
          exact ih i (Nat.lt_of_succ_lt_succ hi) hv
            (fun j hj => hfirst (j + 1) (Nat.succ_lt_succ hj))

/-!
Claim theorems for the merge/postprocess engine.
-/

/-- C1: merge identity and empty laws. For every ExtractionResult r,
merge_documents [r] returns r itself, so no key is added, stripped or
reordered; and merge_documents [] returns the empty mapping. -/
theorem merge_identity_and_empty (r : Dict) :
    merge_documents [r] = r ∧ merge_documents [] = ([] : Dict) :=
  ⟨rfl, rfl⟩

/-- C4: list-field merge. For every batch on the merge path (size at
least two, the smaller sizes being governed by the identity and empty
laws) and every designated list field, the merged value is the
in-document-order concatenation of all items, deduplicated by the
structural key (a mapping by its key-sorted pairs, a scalar by itself):
the merged list is an order-preserving subsequence of the
concatenation, every concatenated item has a representative with its
key, every kept item is the first occurrence of its key, and no two
kept items share a key. -/
theorem merge_list_field_concat_dedup (results : List Dict) (field : String)
    (h2 : 2 ≤ results.length) (hf : field ∈ list_fields) :
    dget (merge_documents results) field
      = some (.vlist (dedupWithSeen [] (concatField results field)))
    ∧ List.Sublist (dedupWithSeen [] (concatField results field)) (concatField results field)
    ∧ (∀ v ∈ concatField results field,
        ∃ w ∈ dedupWithSeen [] (concatField results field), dedupKey w = dedupKey v)
    ∧ (∀ v ∈ dedupWithSeen [] (concatField results field),
        (concatField results field).find? (fun w => dedupKey w == dedupKey v) = some v)
    ∧ (dedupWithSeen [] (concatField results field)).Pairwise
        (fun a b => dedupKey a ≠ dedupKey b) := by
  refine ⟨merge_dget_list results h2 hf, dedupWithSeen_sublist _ _, ?_, ?_, ?_⟩
  · intro v hv
    exact dedupWithSeen_covers _ [] v hv (by simp)
  · intro v hv
    exact dedupWithSeen_first_occurrence _ [] v hv
  · exact dedupWithSeen_pairwise _ []

/-- Witness for C4, the example of the claim: merging skills
[Python, SQL] with [SQL, Go] yields [Python, SQL, Go]. -/
theorem merge_list_field_witness :
    dget (merge_documents
        [[("skills", .vlist [.vstr "Python", .vstr "SQL"])],
         [("skills", .vlist [.vstr "SQL", .vstr "Go"])]]) "skills"
      = some (.vlist [.vstr "Python", .vstr "SQL", .vstr "Go"]) := by
  have h := (merge_list_field_concat_dedup
    [[("skills", .vlist [.vstr "Python", .vstr "SQL"])],
     [("skills", .vlist [.vstr "SQL", .vstr "Go"])]] "skills"
    (by decide) (by decide)).1
  rw [h]
  decide

/-- C5: scalar-field merge. For every batch on the merge path (size at
least two) and every designated scalar field, the merged value is the
qualifying value of the first document in input order, where a value
qualifies when it is present and not None, not the empty string, not
the empty list and not the empty mapping; when no document qualifies
the field is absent from the merged result. -/
theorem merge_scalar_field_first_nonempty (results : List Dict) (field : String)
    (h2 : 2 ≤ results.length) (hf : field ∈ scalar_fields) :
    dget (merge_documents results) field = firstScalar results field
    ∧ ((∀ r ∈ results, scalarVal r field = none) →
        dget (merge_documents results) field = none)
    ∧ (∀ (i : Nat) (hi : i < results.length) (v : Value),
        scalarVal (results.get ⟨i, hi⟩) field = some v →
        (∀ (j : Nat) (hj : j < i), scalarVal (results.get ⟨j, lt_trans hj hi⟩) field = none) →
        dget (merge_documents results) field = some v) := by
  refine ⟨merge_dget_scalar results h2 hf, ?_, ?_⟩
  · intro hall
    rw [merge_dget_scalar results h2 hf]
    exact findSome?_eq_none_of_all results _ hall
  · intro i hi v hv hfirst
    rw [merge_dget_scalar results h2 hf]
    exact findSome?_eq_of_first results _ i hi v hv hfirst

/-- Witness for C5, the example of the claim: with A.name = X and
B.name = None, both merge [A, B] and merge [B, A] have name X. -/
theorem merge_scalar_field_witness :
    dget (merge_documents
        [[("name", .vstr "X")], [("name", .vnull)]]) "name" = some (.vstr "X")
    ∧ dget (merge_documents
        [[("name", .vnull)], [("name", .vstr "X")]]) "name" = some (.vstr "X") := by
  constructor
  · rw [(merge_scalar_field_first_nonempty
      [[("name", .vstr "X")], [("name", .vnull)]] "name" (by decide) (by decide)).1]
    decide
  · rw [(merge_scalar_field_first_nonempty
      [[("name", .vnull)], [("name", .vstr "X")]] "name" (by decide) (by decide)).1]
    decide

/-- C6: stripped keys. For every batch of size greater than one, no key
of the merged result is source, file_name or page, whatever the inputs
carried, and lookups of those keys find nothing. -/
theorem merge_strips_provenance (results : List Dict) (h2 : 2 ≤ results.length) :
    dget (merge_documents results) "source" = none
    ∧ dget (merge_documents results) "file_name" = none
    ∧ dget (merge_documents results) "page" = none
    ∧ ∀ p ∈ merge_documents results,
        p.1 ≠ "source" ∧ p.1 ≠ "file_name" ∧ p.1 ≠ "page" := by
  rcases results with _ | ⟨a, _ | ⟨b, rest⟩⟩
  · simp at h2
  · simp at h2
  · rw [merge_documents_cons2]
    refine ⟨?_, ?_, ?_, ?_⟩
    · rw [dget_dpop_ne _ _ _ (by decide), dget_dpop_ne _ _ _ (by decide), dget_dpop_self]
    · rw [dget_dpop_ne _ _ _ (by decide), dget_dpop_self]
    · rw [dget_dpop_self]
    · intro p hp
      obtain ⟨hp2, hpage⟩ := mem_dpop hp
      obtain ⟨hp3, hfile⟩ := mem_dpop hp2
      obtain ⟨_, hsource⟩ := mem_dpop hp3
      exact ⟨hsource, hfile, hpage⟩

/-- Witness for C6: a two-document batch where every input carries
source, file_name and page, and the merged result contains none. -/
theorem merge_strips_provenance_witness :
    dget (merge_documents
        [[("source", .vstr "a.pdf"), ("file_name", .vstr "a.pdf"), ("page", .vint 1),
          ("name", .vstr "X")],
         [("source", .vstr "b.pdf"), ("file_name", .vstr "b.pdf"), ("page", .vint 2)]])
      "source" = none
    ∧ dget (merge_documents
        [[("source", .vstr "a.pdf"), ("file_name", .vstr "a.pdf"), ("page", .vint 1),
          ("name", .vstr "X")],
         [("source", .vstr "b.pdf"), ("file_name", .vstr "b.pdf"), ("page", .vint 2)]])
      "file_name" = none
    ∧ dget (merge_documents
        [[("source", .vstr "a.pdf"), ("file_name", .vstr "a.pdf"), ("page", .vint 1),
          ("name", .vstr "X")],
         [("source", .vstr "b.pdf"), ("file_name", .vstr "b.pdf"), ("page", .vint 2)]])
      "page" = none := by
  have h := merge_strips_provenance
    [[("source", .vstr "a.pdf"), ("file_name", .vstr "a.pdf"), ("page", .vint 1),
      ("name", .vstr "X")],
     [("source", .vstr "b.pdf"), ("file_name", .vstr "b.pdf"), ("page", .vint 2)]]
    (by decide)
  exact ⟨h.1, h.2.1, h.2.2.1⟩

/-- C10: for every batch of size two or more, the merged result carries
every designated list field, each mapped to a list, which is empty when
no input carried that field; an unfilled scalar field is instead left
absent. -/
theorem merge_always_carries_list_fields (results : List Dict) (h2 : 2 ≤ results.length) :
    (∀ f ∈ list_fields, dget (merge_documents results) f
        = some (.vlist (mergedListField results f)))
    ∧ (∀ f ∈ list_fields, (∀ r ∈ results, dget r f = none) →
        dget (merge_documents results) f = some (.vlist []))
    ∧ (∀ f ∈ scalar_fields, (∀ r ∈ results, scalarVal r f = none) →
        dget (merge_documents results) f = none) := by
  refine ⟨fun f hf => merge_dget_list results h2 hf, ?_, ?_⟩
  · intro f hf hall
    rw [merge_dget_list results h2 hf]
    have hconcat : concatField results f = [] := by
      rw [concatField]
      rw [List.flatten_eq_nil_iff]
      intro l hl
      rw [List.mem_map] at hl
      obtain ⟨r, hr, rfl⟩ := hl
      rw [fieldItems, hall r hr]
    rw [mergedListField, hconcat]
    rfl
  · intro f hf hall
    rw [merge_dget_scalar results h2 hf]
    exact findSome?_eq_none_of_all results _ hall

/-- Witness for C10: a batch of two results with no list fields at all;
the merged result still carries skills as an empty list, while the
unfilled scalar field email is absent. -/
theorem merge_always_carries_list_fields_witness :
    dget (merge_documents [[("name", .vstr "A")], [("name", .vstr "B")]]) "skills"
      = some (.vlist [])
    ∧ dget (merge_documents [[("name", .vstr "A")], [("name", .vstr "B")]]) "email"
      = none := by
  have h := merge_always_carries_list_fields
    [[("name", .vstr "A")], [("name", .vstr "B")]] (by decide)
  exact ⟨h.2.1 "skills" (by decide) (by decide), h.2.2 "email" (by decide) (by decide)⟩

/-!
Claim theorems for the extraction client.
-/

/-- C2: the extraction client never raises across the pipeline boundary.
The embedded extract_from_document is total, so every chain outcome
yields a mapping; and when the chain raises, the result is exactly the
error mapping with the error message and the source path of the
document, its keys being error and source_file and nothing else. -/
theorem extractor_error_contract (doc : LCDocument) (msg : String) (md : Dict) (s : String)
    (hmd : doc.metadata = some md) (hs : dget md "source" = some (.vstr s)) (hne : s ≠ "") :
    extract_from_document doc (.failure msg)
      = [("error", .vstr ("Error processing document " ++ s ++ ": " ++ msg)),
         ("source_file", .vstr s)]
    ∧ (extract_from_document doc (.failure msg)).map Prod.fst = ["error", "source_file"]
    ∧ ∀ o : ChainOutcome, ∃ d : Dict, extract_from_document doc o = d := by
  have hempty : s.isEmpty = false := by
    rw [Bool.eq_false_iff]
    intro hc
    exact hne ((String.isEmpty_iff s).mp hc)
  have hsf : sourceFileOf doc = .vstr s := by
    rw [sourceFileOf, hmd]
    simp [mget, hs, pyOr, pyFalsy, hempty]
  refine ⟨?_, ?_, fun o => ⟨_, rfl⟩⟩
  · rw [extract_from_document, hsf]
    rfl
  · rw [extract_from_document, hsf]
    rfl

/-- Witness for C2: a document whose metadata carries a source path, and
a failing chain call; the result is the error mapping. -/
theorem extractor_error_contract_witness :
    extract_from_document
        ⟨"cv text", some [("source", .vstr "/tmp/cv.pdf")], none⟩ (.failure "boom")
      = [("error", .vstr "Error processing document /tmp/cv.pdf: boom"),
         ("source_file", .vstr "/tmp/cv.pdf")] := by
  have h := (extractor_error_contract
    ⟨"cv text", some [("source", .vstr "/tmp/cv.pdf")], none⟩ "boom"
    [("source", .vstr "/tmp/cv.pdf")] "/tmp/cv.pdf" rfl rfl (by decide)).1
  rw [h]
  decide

/-- C8 counterexample: a successful extraction from a document whose
metadata carries source, page, title and total_pages; the result has no
metadata sub-mapping and no date_of_extraction key, against the claim
that every successful result carries both. -/
theorem extract_no_metadata_submap :
    dget (extract_from_document
        ⟨"cv text",
         some [("source", .vstr "/tmp/a.pdf"), ("page", .vint 0),
               ("title", .vstr "T"), ("total_pages", .vint 2)], none⟩
        (.success [("name", .vstr "X")])) "metadata" = none
    ∧ dget (extract_from_document
        ⟨"cv text",
         some [("source", .vstr "/tmp/a.pdf"), ("page", .vint 0),
               ("title", .vstr "T"), ("total_pages", .vint 2)], none⟩
        (.success [("name", .vstr "X")])) "date_of_extraction" = none := by
  exact ⟨rfl, rfl⟩

/-- C8 amended: after a successful extraction the client attaches the
provenance as top-level keys, source from the document metadata,
file_name its basename, and page when the metadata has one; no metadata
sub-mapping and no extraction date are attached; and a failed
extraction carries none of these, only error and source_file. -/
theorem extract_attaches_provenance (doc : LCDocument) (md payload : Dict)
    (s : String) (p : Value) (msg : String)
    (hmd : doc.metadata = some md) (hs : dget md "source" = some (.vstr s))
    (hp : dget md "page" = some p)
    (hm1 : dget payload "metadata" = none)
    (hm2 : dget payload "date_of_extraction" = none) :
    dget (extract_from_document doc (.success payload)) "source" = some (.vstr s)
    ∧ dget (extract_from_document doc (.success payload)) "file_name"
        = some (.vstr (pathBasename s))
    ∧ dget (extract_from_document doc (.success payload)) "page" = some p
    ∧ dget (extract_from_document doc (.success payload)) "metadata" = none
    ∧ dget (extract_from_document doc (.success payload)) "date_of_extraction" = none
    ∧ (extract_from_document doc (.failure msg)).map Prod.fst = ["error", "source_file"] := by
  have hattach : extract_from_document doc (.success payload)
      = dset (dset (dset payload "source" (.vstr s)) "file_name"
          (.vstr (pathBasename s))) "page" p := by
    rw [extract_from_document, attachMeta, hmd]
    simp only [hs, hp]
    rfl
  rw [hattach]
  refine ⟨?_, ?_, ?_, ?_, ?_, ?_⟩
  · rw [dget_dset_ne _ _ _ _ (by decide), dget_dset_ne _ _ _ _ (by decide), dget_dset_self]
  · rw [dget_dset_ne _ _ _ _ (by decide), dget_dset_self]
  · rw [dget_dset_self]
  · rw [dget_dset_ne _ _ _ _ (by decide), dget_dset_ne _ _ _ _ (by decide),
      dget_dset_ne _ _ _ _ (by decide), hm1]
  · rw [dget_dset_ne _ _ _ _ (by decide), dget_dset_ne _ _ _ _ (by decide),
      dget_dset_ne _ _ _ _ (by decide), hm2]
  · rfl

/-- Witness for the amended C8, at a concrete document and payload. -/
theorem extract_attaches_provenance_witness :
    dget (extract_from_document
        ⟨"cv text", some [("source", .vstr "/tmp/dir/a.pdf"), ("page", .vint 0)], none⟩
        (.success [("name", .vstr "X")])) "source" = some (.vstr "/tmp/dir/a.pdf")
    ∧ dget (extract_from_document
        ⟨"cv text", some [("source", .vstr "/tmp/dir/a.pdf"), ("page", .vint 0)], none⟩
        (.success [("name", .vstr "X")])) "file_name" = some (.vstr "a.pdf")
    ∧ dget (extract_from_document
        ⟨"cv text", some [("source", .vstr "/tmp/dir/a.pdf"), ("page", .vint 0)], none⟩
        (.success [("name", .vstr "X")])) "page" = some (.vint 0)
    ∧ dget (extract_from_document
        ⟨"cv text", some [("source", .vstr "/tmp/dir/a.pdf"), ("page", .vint 0)], none⟩
        (.success [("name", .vstr "X")])) "metadata" = none := by
  have h := extract_attaches_provenance
    ⟨"cv text", some [("source", .vstr "/tmp/dir/a.pdf"), ("page", .vint 0)], none⟩
    [("source", .vstr "/tmp/dir/a.pdf"), ("page", .vint 0)] [("name", .vstr "X")]
    "/tmp/dir/a.pdf" (.vint 0) "unused" rfl rfl rfl rfl rfl
  exact ⟨h.1, by rw [h.2.1]; decide, h.2.2.1, h.2.2.2.1⟩

/-!
Claim theorems for the pipeline orchestrator.
-/

/-- C3: partial-failure containment with order preservation. For every
nonempty batch processed as directory input, the orchestrator writes
and returns the list of the per-document results in discovery order:
the list has one slot per document, slot i holds the result of document
i, a failing document contributes its error mapping in place, and a
succeeding document contributes its schema payload with provenance
attached; no slot is dropped. -/
theorem pipeline_output_slots (docs : List LCDocument)
    (chain : LCDocument → ChainOutcome) (hne : docs ≠ []) :
    (run_extraction_pipeline true docs chain).written
      = .vlist (docs.map (fun x => Value.vdict (extract_from_document x (chain x))))
    ∧ (run_extraction_pipeline true docs chain).returned
        = (run_extraction_pipeline true docs chain).written
    ∧ (docs.map (fun x => Value.vdict (extract_from_document x (chain x)))).length
        = docs.length
    ∧ (∀ (i : Nat) (hi : i < docs.length),
        (docs.map (fun x => Value.vdict (extract_from_document x (chain x)))).get
            ⟨i, by rw [List.length_map]; exact hi⟩
          = .vdict (extract_from_document (docs.get ⟨i, hi⟩) (chain (docs.get ⟨i, hi⟩))))
    ∧ (∀ (d : LCDocument) (msg : String), chain d = .failure msg →
        extract_from_document d (chain d)
          = [("error", .vstr ("Error processing document "
                ++ valueStr (sourceFileOf d) ++ ": " ++ msg)),
             ("source_file", sourceFileOf d)])
    ∧ (∀ (d : LCDocument) (payload : Dict), chain d = .success payload →
        extract_from_document d (chain d) = attachMeta d payload) := by
  rcases docs with _ | ⟨d, ds⟩
  · exact absurd rfl hne
  · refine ⟨rfl, rfl, List.length_map _ _, ?_, ?_, ?_⟩
    · intro i hi
      rw [List.get_eq_getElem, List.get_eq_getElem, List.getElem_map]
    · intro x msg h
      rw [h]
      rfl
    · intro x payload h
      rw [h]
      rfl

/-- Witness for C3, the three-document example of the claim: document 2
fails during extraction, and the output is a three-element list whose
middle slot is the error mapping while slots 1 and 3 hold the schema
results. -/
theorem pipeline_output_slots_witness :
    (run_extraction_pipeline true
        [⟨"A", some [("source", .vstr "a.txt")], none⟩,
         ⟨"B", some [("source", .vstr "b.txt")], none⟩,
         ⟨"C", some [("source", .vstr "c.txt")], none⟩]
        (fun d => if d.page_content = "B" then .failure "boom"
                  else .success [("name", .vstr d.page_content)])).returned
      = .vlist
        [.vdict [("name", .vstr "A"), ("source", .vstr "a.txt"), ("file_name", .vstr "a.txt")],
         .vdict [("error", .vstr "Error processing document b.txt: boom"),
                 ("source_file", .vstr "b.txt")],
         .vdict [("name", .vstr "C"), ("source", .vstr "c.txt"),
                 ("file_name", .vstr "c.txt")]] := by
  have h := pipeline_output_slots
    [⟨"A", some [("source", .vstr "a.txt")], none⟩,
     ⟨"B", some [("source", .vstr "b.txt")], none⟩,
     ⟨"C", some [("source", .vstr "c.txt")], none⟩]
    (fun d => if d.page_content = "B" then .failure "boom"
              else .success [("name", .vstr d.page_content)])
    (by decide)
  rw [h.2.1, h.1]
  decide

/-- C7 counterexample: with directory input and no loaded documents, the
orchestrator writes an empty list to the output file but returns the
empty mapping, not an empty sequence. -/
theorem pipeline_empty_dir_returns_mapping :
    (run_extraction_pipeline true [] (fun _ => .noneResult)).written = .vlist []
    ∧ (run_extraction_pipeline true [] (fun _ => .noneResult)).returned = .vdict []
    ∧ (run_extraction_pipeline true [] (fun _ => .noneResult)).returned ≠ .vlist [] :=
  ⟨rfl, rfl, by decide⟩

/-- C7 amended: when no documents are loaded, the orchestrator writes an
empty list for directory input and an empty mapping for file input, and
returns the empty mapping in both cases. -/
theorem pipeline_empty_batch (chain : LCDocument → ChainOutcome) :
    (run_extraction_pipeline true [] chain).written = .vlist []
    ∧ (run_extraction_pipeline true [] chain).returned = .vdict []
    ∧ (run_extraction_pipeline false [] chain).written = .vdict []
    ∧ (run_extraction_pipeline false [] chain).returned = .vdict [] :=
  ⟨rfl, rfl, rfl, rfl⟩

/-!
Claim theorems for the sync/async execution bridge.
-/

/-- C9 counterexample: in the reentrant case the core bridge submits the
coroutine to a worker thread but blocks on future.result with no
timeout argument, an unbounded wait, not the claimed 120-second bound. -/
theorem bridge_reentrant_wait_unbounded :
    run_sync_or_async true .runningLoop = .workerThread none
    ∧ run_sync_or_async true .runningLoop ≠ .workerThread (some 120) :=
  ⟨rfl, by decide⟩

/-- C9 amended: the core bridge runs a reentrant asynchronous operation
on a separate worker thread with a fresh scheduler and blocks the
caller without any bound, so no timeout error can arise there; an idle
scheduler runs the operation to completion on the calling thread, and a
missing scheduler is replaced by a fresh one; the 120-second bounded
wait exists only in the UI-layer copy of the bridge. -/
theorem bridge_dispatch_contract :
    run_sync_or_async true .runningLoop = .workerThread none
    ∧ run_sync_or_async true .idleLoop = .runUntilComplete
    ∧ run_sync_or_async true .noLoop = .newLoopRun
    ∧ (∀ ls : LoopState, run_sync_or_async false ls = .direct)
    ∧ process_uploaded_file_exec true .runningLoop = .workerThread (some 120) :=
  ⟨rfl, rfl, rfl, fun _ => rfl, rfl⟩

end CvExtractor
